import Mathlib

/-!
Verification development for the btcflow repository.

The Python sources are shallowly embedded:
  * `constants.py`  — numeric constants, as exact integers / rationals;
  * `flow.py`       — `FeeBuckets` is a Python dict `fee_rate -> weight`.  We model the
    dict as an association list with pairwise-distinct keys.  Every write path of the
    class normalizes its key into `[MIN_FEE_RATE, MAX_FEE_RATE]`, so the stored keys
    always lie in that interval; we carry that invariant in the structure.
    Weights are modelled as rationals (the code mixes ints and floats).
    `__setitem__` can raise `KeyError` (a zero write to a missing key executes
    `del self._buckets[fee_rate]`), hence it returns an `Option`.
  * the Poisson simulation of `flow.py` — `scipy.stats.poisson(lam).cdf(k)` is the exact
    Poisson cumulative distribution `exp (-lam) * Σ_{i ≤ k} lam^i / i!` over the reals;
    the unbounded search loop of `get_min_expected_blocks` is embedded as the least
    element of its exit set (`sInf`), which is exactly the value the loop returns
    whenever the exit set is nonempty and is the subject of the termination claim.
  * `bitcoind.py` / `txdb.py` — the RPC layer is embedded as pure functions of the
    decoded response; exceptions become `Except`, "absent" becomes `none`.
-/

namespace BtcFlow

/-! ### constants.py -/

def BLOCK_CAPACITY_WU : ℤ := 4 * 1000 * 1000

def TARGET_BLOCK_TIME_MINUTES : ℚ := 10

def COIN : ℤ := 100 * 1000 * 1000

def MIN_FEE_RATE : ℤ := 1

def MAX_FEE_RATE : ℤ := 10000

def TARGETS_CONFIDENCE : List ℚ := [1/2, 4/5, 9/10]

def TARGETS_MINUTE : List ℕ := [30, 60, 60*2, 60*3, 60*6, 60*12, 60*24]

/-! ### flow.py — FeeBuckets

Association-list embedding of the `_buckets` dict. -/

/-- Python dict lookup `l[k]` (first, and with distinct keys the only, match). -/
def assocFind : List (ℤ × ℚ) → ℤ → Option ℚ
  | [], _ => none
  | p :: rest, k => if p.1 = k then some p.2 else assocFind rest k

/-- Python dict assignment `l[k] = v`: replace in place if the key is present,
append otherwise (dicts keep insertion order). -/
def assocSet : List (ℤ × ℚ) → ℤ → ℚ → List (ℤ × ℚ)
  | [], k, v => [(k, v)]
  | p :: rest, k, v => if p.1 = k then (k, v) :: rest else p :: assocSet rest k v

/-- Python dict deletion `del l[k]` (the caller checks presence; with distinct keys
removing every match removes exactly the one binding). -/
def assocErase (l : List (ℤ × ℚ)) (k : ℤ) : List (ℤ × ℚ) :=
  l.filter (fun p => decide (p.1 ≠ k))

/-- `flow.FeeBuckets`: the `_buckets` dict, with the dict invariants that every key is
stored once and (because every write goes through `_normalize`) lies in
`[MIN_FEE_RATE, MAX_FEE_RATE]`. -/
structure FeeBuckets where
  buckets : List (ℤ × ℚ)
  keys_nodup : (buckets.map Prod.fst).Nodup
  keys_in_range : ∀ p ∈ buckets, MIN_FEE_RATE ≤ p.1 ∧ p.1 ≤ MAX_FEE_RATE

/-- `FeeBuckets._normalize`: clamp a fee rate into `[MIN_FEE_RATE, MAX_FEE_RATE]`
(first `min` with the max bound, then `max` with the min bound). -/
def FeeBuckets.normalize (fee_rate : ℤ) : ℤ :=
  max (min fee_rate MAX_FEE_RATE) MIN_FEE_RATE

theorem FeeBuckets.normalize_in_range (fee_rate : ℤ) :
    MIN_FEE_RATE ≤ FeeBuckets.normalize fee_rate ∧
      FeeBuckets.normalize fee_rate ≤ MAX_FEE_RATE := by
  unfold FeeBuckets.normalize
  refine ⟨le_max_right _ _, max_le (le_trans (min_le_right _ _) le_rfl) ?_⟩
  unfold MIN_FEE_RATE MAX_FEE_RATE
  norm_num

/-- A fresh `FeeBuckets()` (empty dict). -/
def FeeBuckets.empty : FeeBuckets :=
  ⟨[], List.nodup_nil, by intro p hp; cases hp⟩

/-- `FeeBuckets.sum`: sum of all stored values. -/
def FeeBuckets.sum (b : FeeBuckets) : ℚ :=
  (b.buckets.map Prod.snd).sum

/-- `FeeBuckets.get_aggregate_sup`: sum of all values whose fee rate is `≥ threshold`.
Note that the source does NOT normalize the threshold. -/
def FeeBuckets.get_aggregate_sup (b : FeeBuckets) (threshold : ℤ) : ℚ :=
  ((b.buckets.filter (fun p => decide (threshold ≤ p.1))).map Prod.snd).sum

/-- `FeeBuckets.max_fee_rate`: maximum stored fee rate, `0` for an empty bucket.
(Python takes `max(keys)` of the nonempty key set; since every stored key is
`≥ MIN_FEE_RATE = 1 > 0`, folding `max` from `0` returns the same value.) -/
def FeeBuckets.max_fee_rate (b : FeeBuckets) : ℤ :=
  if b.buckets = [] then 0 else (b.buckets.map Prod.fst).foldl max 0

/-- `FeeBuckets.__getitem__`: read through `_normalize`, missing key reads as `0`. -/
def FeeBuckets.getitem (b : FeeBuckets) (fee_rate : ℤ) : ℚ :=
  match assocFind b.buckets (FeeBuckets.normalize fee_rate) with
  | some v => v
  | none => 0

/-- `FeeBuckets.__contains__`: the normalized key is stored with a positive value. -/
def FeeBuckets.containsRate (b : FeeBuckets) (fee_rate : ℤ) : Bool :=
  match assocFind b.buckets (FeeBuckets.normalize fee_rate) with
  | some v => decide (0 < v)
  | none => false

theorem assocSet_map_fst (l : List (ℤ × ℚ)) (k : ℤ) (v : ℚ) :
    (assocSet l k v).map Prod.fst =
      if (assocFind l k).isSome then l.map Prod.fst else l.map Prod.fst ++ [k] := by
  induction l with
  | nil => simp [assocSet, assocFind]
  | cons p rest ih =>
    by_cases h : p.1 = k
    · simp [assocSet, assocFind, h]
    · simp only [assocSet, assocFind, if_neg h, List.map_cons, ih]
      by_cases h2 : (assocFind rest k).isSome <;> simp [h2]

theorem mem_assocSet (l : List (ℤ × ℚ)) (k : ℤ) (v : ℚ) (q : ℤ × ℚ)
    (hq : q ∈ assocSet l k v) : q = (k, v) ∨ q ∈ l := by
  induction l with
  | nil => simpa [assocSet] using hq
  | cons p rest ih =>
    by_cases h : p.1 = k
    · simp only [assocSet, if_pos h, List.mem_cons] at hq
      rcases hq with hq | hq
      · exact Or.inl hq
      · exact Or.inr (List.mem_cons_of_mem _ hq)
    · simp only [assocSet, if_neg h, List.mem_cons] at hq
      rcases hq with hq | hq
      · exact Or.inr (hq ▸ List.mem_cons_self _ _)
      · rcases ih hq with h1 | h1
        · exact Or.inl h1
        · exact Or.inr (List.mem_cons_of_mem _ h1)

theorem assocFind_assocSet_self (l : List (ℤ × ℚ)) (k : ℤ) (v : ℚ) :
    assocFind (assocSet l k v) k = some v := by
  induction l with
  | nil => simp [assocSet, assocFind]
  | cons p rest ih =>
    by_cases h : p.1 = k
    · simp [assocSet, assocFind, h]
    · simp [assocSet, assocFind, h, ih]

theorem assocErase_sublist (l : List (ℤ × ℚ)) (k : ℤ) : (assocErase l k).Sublist l :=
  List.filter_sublist l

theorem assocFind_isSome_of_mem_fst (l : List (ℤ × ℚ)) (x : ℤ)
    (hx : x ∈ l.map Prod.fst) : (assocFind l x).isSome := by
  induction l with
  | nil => simp at hx
  | cons q rest ih =>
    by_cases hq : q.1 = x
    · simp [assocFind, hq]
    · simp only [List.map_cons, List.mem_cons] at hx
      rcases hx with hx | hx

      · exact absurd hx.symm hq
      · simpa [assocFind, hq] using ih hx

theorem assocFind_assocErase_self (l : List (ℤ × ℚ)) (k : ℤ) :
    assocFind (assocErase l k) k = none := by
  induction l with
  | nil => simp [assocErase, assocFind]
  | cons p rest ih =>
    by_cases h : p.1 = k
    · simpa [assocErase, List.filter, h] using ih
    · simpa [assocErase, List.filter, h, assocFind] using ih

/-- `FeeBuckets.__setitem__`: write through `_normalize`; a zero value deletes the
key (`del`), which raises `KeyError` (modelled as `none`) when the key is absent. -/
def FeeBuckets.setitem (b : FeeBuckets) (fee_rate : ℤ) (value : ℚ) : Option FeeBuckets :=
  let k := FeeBuckets.normalize fee_rate
  if value = 0 then
    if (assocFind b.buckets k).isSome then
      some ⟨assocErase b.buckets k,
        ((assocErase_sublist b.buckets k).map Prod.fst).nodup b.keys_nodup,
        fun p hp => b.keys_in_range p ((assocErase_sublist b.buckets k).mem hp)⟩
    else none
  else
    some ⟨assocSet b.buckets k value, by
        rw [assocSet_map_fst]
        by_cases h : (assocFind b.buckets k).isSome
        · simpa [h] using b.keys_nodup
        · simp only [h, if_false]
          refine List.Nodup.append b.keys_nodup (List.nodup_singleton k) ?_
          intro x hx hxk
          have hxe : x = k := List.mem_singleton.mp hxk
          rw [hxe] at hx
          exact h (assocFind_isSome_of_mem_fst b.buckets k hx),
      by
        intro p hp
        rcases mem_assocSet _ _ _ _ hp with rfl | hmem
        · exact FeeBuckets.normalize_in_range fee_rate
        · exact b.keys_in_range p hmem⟩

/-! #### Facts about the bucket operations -/

theorem foldl_max_init_le (l : List ℤ) (a : ℤ) : a ≤ l.foldl max a := by
  induction l generalizing a with
  | nil => exact le_rfl
  | cons x rest ih => exact le_trans (le_max_left a x) (ih (max a x))

theorem le_foldl_max_of_mem (l : List ℤ) (x : ℤ) :
    x ∈ l → ∀ a : ℤ, x ≤ l.foldl max a := by
  induction l with
  | nil => intro hx; cases hx
  | cons y rest ih =>
    intro hx a
    rcases List.mem_cons.mp hx with rfl | hmem
    · exact le_trans (le_max_right a x) (foldl_max_init_le rest (max a x))
    · exact ih hmem (max a y)

theorem FeeBuckets.key_le_max_fee_rate (b : FeeBuckets) (p : ℤ × ℚ) (hp : p ∈ b.buckets) :
    p.1 ≤ b.max_fee_rate := by
  unfold FeeBuckets.max_fee_rate
  have hne : b.buckets ≠ [] := by intro h; rw [h] at hp; cases hp
  rw [if_neg hne]
  exact le_foldl_max_of_mem _ _ (List.mem_map_of_mem Prod.fst hp) 0

theorem FeeBuckets.max_fee_rate_nonneg (b : FeeBuckets) : 0 ≤ b.max_fee_rate := by
  unfold FeeBuckets.max_fee_rate
  by_cases h : b.buckets = []
  · rw [if_pos h]
  · rw [if_neg h]; exact foldl_max_init_le _ 0

theorem FeeBuckets.get_aggregate_sup_eq_zero (b : FeeBuckets) (t : ℤ)
    (h : ∀ p ∈ b.buckets, p.1 < t) : b.get_aggregate_sup t = 0 := by
  unfold FeeBuckets.get_aggregate_sup
  have hf : b.buckets.filter (fun p => decide (t ≤ p.1)) = [] := by
    refine List.filter_eq_nil_iff.mpr fun p hp => ?_
    simpa using not_le.mpr (h p hp)
  rw [hf]
  rfl

theorem FeeBuckets.get_aggregate_sup_eq_sum (b : FeeBuckets) (t : ℤ)
    (h : ∀ p ∈ b.buckets, t ≤ p.1) : b.get_aggregate_sup t = b.sum := by
  unfold FeeBuckets.get_aggregate_sup FeeBuckets.sum
  have hf : b.buckets.filter (fun p => decide (t ≤ p.1)) = b.buckets := by
    refine List.filter_eq_self.mpr fun p hp => ?_
    simpa using h p hp
  rw [hf]

theorem FeeBuckets.get_aggregate_sup_eq_if_sum (b : FeeBuckets) (t : ℤ) :
    b.get_aggregate_sup t = (b.buckets.map (fun p => if t ≤ p.1 then p.2 else 0)).sum := by
  unfold FeeBuckets.get_aggregate_sup
  induction b.buckets with
  | nil => rfl
  | cons p rest ih =>
    by_cases h : t ≤ p.1
    · simp only [List.filter_cons, List.map_cons, decide_eq_true_eq, if_pos h, List.map_cons,
        List.sum_cons, ih]
    · simp only [List.filter_cons, List.map_cons, decide_eq_true_eq, if_neg h, List.sum_cons, ih]
      simp

/-! #### Claim C3 — aggregate-sup and threshold normalization -/

/-- Modelled from the spec text of claim C3 only (not from the source), for comparison
with `FeeBuckets.get_aggregate_sup`: the aggregate with the threshold normalized like
every other bucket read. -/
def FeeBuckets.aggregate_sup_clamped (b : FeeBuckets) (threshold : ℤ) : ℚ :=
  ((b.buckets.filter
      (fun p => decide (FeeBuckets.normalize threshold ≤ p.1))).map Prod.snd).sum

def bucketAtMaxKey : FeeBuckets :=
  ⟨[(10000, 5)], by decide, by decide⟩

/-- C3 counterexample: on a bucket holding weight 5 at the maximal key
`MAX_FEE_RATE = 10000`, the source `get_aggregate_sup` at threshold 10001 returns 0,
while the claimed clamped reading (sum over keys `≥ clamp 10001 = 10000`) returns 5:
the threshold is *not* normalized like other bucket reads. -/
theorem C3_counterexample :
    bucketAtMaxKey.get_aggregate_sup 10001 = 0 ∧
      bucketAtMaxKey.aggregate_sup_clamped 10001 = 5 := by
  refine ⟨by decide, ?_⟩
  show (5 + 0 : ℚ) = 5
  norm_num

def bucketC3 : FeeBuckets :=
  ⟨[(7, 2), (9, 4)], by decide, by decide⟩

/-- C3 (amended): `get_aggregate_sup threshold` sums the stored values over all keys
`≥ threshold`, with no normalization applied to the threshold; in particular a
threshold above the maximum stored key yields 0 and a threshold at or below every
stored key yields the full sum. -/
theorem C3_aggregate_sup (b : FeeBuckets) (t : ℤ) :
    b.get_aggregate_sup t = (b.buckets.map (fun p => if t ≤ p.1 then p.2 else 0)).sum ∧
    (b.max_fee_rate < t → b.get_aggregate_sup t = 0) ∧
    ((∀ p ∈ b.buckets, t ≤ p.1) → b.get_aggregate_sup t = b.sum) := by
  refine ⟨FeeBuckets.get_aggregate_sup_eq_if_sum b t, fun h => ?_, fun h =>
    FeeBuckets.get_aggregate_sup_eq_sum b t h⟩
  exact FeeBuckets.get_aggregate_sup_eq_zero b t fun p hp =>
    lt_of_le_of_lt (FeeBuckets.key_le_max_fee_rate b p hp) h

/-- C3 witness: the amended theorem applied to a concrete bucket, with both
hypotheses discharged at concrete thresholds. -/
theorem C3_witness :
    (bucketC3.max_fee_rate < 10001 ∧ bucketC3.get_aggregate_sup 10001 = 0) ∧
    ((∀ p ∈ bucketC3.buckets, (1 : ℤ) ≤ p.1) ∧
      bucketC3.get_aggregate_sup 1 = bucketC3.sum) :=
  ⟨⟨by decide, (C3_aggregate_sup bucketC3 10001).2.1 (by decide)⟩,
    ⟨by decide, (C3_aggregate_sup bucketC3 1).2.2 (by decide)⟩⟩

/-! #### Claim C6 — point accumulate and zero writes -/

theorem FeeBuckets.setitem_nonzero (b : FeeBuckets) (r : ℤ) (v : ℚ) (hv : v ≠ 0) :
    ∃ b1, b.setitem r v = some b1 ∧
      b1.buckets = assocSet b.buckets (FeeBuckets.normalize r) v := by
  unfold FeeBuckets.setitem
  rw [if_neg hv]
  exact ⟨_, rfl, rfl⟩

theorem FeeBuckets.setitem_zero_present (b : FeeBuckets) (r : ℤ)
    (h : (assocFind b.buckets (FeeBuckets.normalize r)).isSome) :
    ∃ b1, b.setitem r 0 = some b1 ∧
      b1.buckets = assocErase b.buckets (FeeBuckets.normalize r) := by
  unfold FeeBuckets.setitem
  rw [if_pos rfl, if_pos h]
  exact ⟨_, rfl, rfl⟩

theorem FeeBuckets.getitem_of_find_none (b : FeeBuckets) (r : ℤ)
    (h : assocFind b.buckets (FeeBuckets.normalize r) = none) : b.getitem r = 0 := by
  unfold FeeBuckets.getitem
  rw [h]

theorem FeeBuckets.getitem_of_find_some (b : FeeBuckets) (r : ℤ) (v : ℚ)
    (h : assocFind b.buckets (FeeBuckets.normalize r) = some v) : b.getitem r = v := by
  unfold FeeBuckets.getitem
  rw [h]

/-- C6 (amended): starting from a bucket with no stored entry at the normalized rate
and a first increment `w ≠ 0`, accumulating `w` then `w2` leaves `w + w2` readable at
`r`; and a zero write at a rate whose normalized key *is* stored removes the key, so
the membership test afterwards returns false.  (As literally stated the claim fails:
a pre-existing entry adds into the total, and a zero write to a missing key raises
`KeyError` — see the counterexample.) -/
theorem C6_setitem_semantics (b : FeeBuckets) (r : ℤ) (w w2 : ℚ)
    (hfresh : assocFind b.buckets (FeeBuckets.normalize r) = none) (hw : w ≠ 0)
    (b' : FeeBuckets) (r' : ℤ)
    (hkey : (assocFind b'.buckets (FeeBuckets.normalize r')).isSome = true) :
    (∃ b1 b2, b.setitem r (b.getitem r + w) = some b1 ∧
        b1.setitem r (b1.getitem r + w2) = some b2 ∧
        b2.getitem r = w + w2) ∧
    (∃ b'', b'.setitem r' 0 = some b'' ∧ b''.containsRate r' = false) := by
  constructor
  · have hg : b.getitem r = 0 := FeeBuckets.getitem_of_find_none b r hfresh
    have hv1 : b.getitem r + w ≠ 0 := by rw [hg, zero_add]; exact hw
    obtain ⟨b1, hb1, hb1b⟩ := FeeBuckets.setitem_nonzero b r (b.getitem r + w) hv1
    have hfind1 : assocFind b1.buckets (FeeBuckets.normalize r) = some w := by
      rw [hb1b, hg, zero_add]
      exact assocFind_assocSet_self _ _ _
    have hg1 : b1.getitem r = w := FeeBuckets.getitem_of_find_some b1 r w hfind1
    by_cases hz : w + w2 = 0
    · have hkey1 : (assocFind b1.buckets (FeeBuckets.normalize r)).isSome := by
        rw [hfind1]; rfl
      obtain ⟨b2, hb2, hb2b⟩ := FeeBuckets.setitem_zero_present b1 r hkey1
      refine ⟨b1, b2, hb1, ?_, ?_⟩
      · rw [hg1, hz]
        exact hb2
      · rw [FeeBuckets.getitem_of_find_none b2 r (by
          rw [hb2b]; exact assocFind_assocErase_self _ _), hz]
    · obtain ⟨b2, hb2, hb2b⟩ := FeeBuckets.setitem_nonzero b1 r (b1.getitem r + w2) (by
        rw [hg1]; exact hz)
      refine ⟨b1, b2, hb1, hb2, ?_⟩
      have : assocFind b2.buckets (FeeBuckets.normalize r) = some (w + w2) := by
        rw [hb2b, hg1]
        exact assocFind_assocSet_self _ _ _
      exact FeeBuckets.getitem_of_find_some b2 r (w + w2) this
  · obtain ⟨b'', hb, hbb⟩ := FeeBuckets.setitem_zero_present b' r' hkey
    refine ⟨b'', hb, ?_⟩
    unfold FeeBuckets.containsRate
    rw [hbb, assocFind_assocErase_self]

def bucketPreexisting : FeeBuckets :=
  ⟨[(5, 3)], by decide, by decide⟩

/-- C6 counterexample: on a bucket already holding weight 3 at key 5, the sequence
`bucket[5] += 1; bucket[5] += 1` leaves `bucket[5] = 5`, not `w + w2 = 2`; and on an
empty bucket the zero write `bucket[5] = 0` raises `KeyError` (modelled as `none`)
instead of leaving the key absent. -/
theorem C6_counterexample :
    (∃ b1 b2, bucketPreexisting.setitem 5 (bucketPreexisting.getitem 5 + 1) = some b1 ∧
        b1.setitem 5 (b1.getitem 5 + 1) = some b2 ∧ b2.getitem 5 = 5) ∧
    (5 : ℚ) ≠ 1 + 1 ∧
    FeeBuckets.empty.setitem 5 0 = none := by
  have hg : bucketPreexisting.getitem 5 = 3 :=
    FeeBuckets.getitem_of_find_some _ _ _ rfl
  obtain ⟨b1, hb1, hb1b⟩ := FeeBuckets.setitem_nonzero bucketPreexisting 5
    (bucketPreexisting.getitem 5 + 1) (by rw [hg]; norm_num)
  have hg1 : b1.getitem 5 = 4 := by
    rw [FeeBuckets.getitem_of_find_some b1 5 _
      (by rw [hb1b]; exact assocFind_assocSet_self _ _ _), hg]
    norm_num
  obtain ⟨b2, hb2, hb2b⟩ := FeeBuckets.setitem_nonzero b1 5
    (b1.getitem 5 + 1) (by rw [hg1]; norm_num)
  have hg2 : b2.getitem 5 = 5 := by
    rw [FeeBuckets.getitem_of_find_some b2 5 _
      (by rw [hb2b]; exact assocFind_assocSet_self _ _ _), hg1]
    norm_num
  exact ⟨⟨b1, b2, hb1, hb2, hg2⟩, by norm_num, rfl⟩

def bucketC6 : FeeBuckets :=
  ⟨[(9, 4)], by decide, by decide⟩

/-- C6 witness: the amended theorem applied to an empty bucket with `w = 2`,
`w2 = 3` at rate 7, and a zero write at the stored rate 9 of a concrete bucket. -/
theorem C6_witness :
    (∃ b1 b2, FeeBuckets.empty.setitem 7 (FeeBuckets.empty.getitem 7 + 2) = some b1 ∧
        b1.setitem 7 (b1.getitem 7 + 3) = some b2 ∧
        b2.getitem 7 = 2 + 3) ∧
    (∃ b'', bucketC6.setitem 9 0 = some b'' ∧ b''.containsRate 9 = false) :=
  C6_setitem_semantics FeeBuckets.empty 7 2 3 (by decide) (by norm_num) bucketC6 9 (by decide)

/-! ### flow.py — decreasing-fee correction

The nested dict `delay -> confidence -> fee_rate` is modelled as a total function;
the pipeline fills it at the target windows and confidences and the claims only
address those entries.  A fee-rate entry is a natural number or
`POSITIVE_INFINITY` (`⊤` in `ℕ∞`). -/

abbrev Table : Type := ℕ → ℚ → ℕ∞

/-- A single dict write `estimates[delay][confidence] = v`. -/
def tableUpdate (t : Table) (delay : ℕ) (confidence : ℚ) (v : ℕ∞) : Table :=
  fun d c => if d = delay ∧ c = confidence then v else t d c

/-- Inner loop of `correction_decreasing_fees` for one confidence: walk the windows,
carry the running minimum `min_value`, and clamp each entry to it. -/
def correctionRow (confidence : ℚ) : List ℕ → ℕ∞ → Table → Table
  | [], _, t => t
  | delay :: rest, min_value, t =>
    correctionRow confidence rest (min min_value (t delay confidence))
      (tableUpdate t delay confidence (min min_value (t delay confidence)))

/-- `correction_decreasing_fees`: for each confidence, clamp the estimates across the
window list to the running minimum, starting from `POSITIVE_INFINITY = ⊤`. -/
def correction_decreasing_fees (estimates : Table) (list_windows : List ℕ)
    (list_confidence : List ℚ) : Table :=
  list_confidence.foldl (fun t c => correctionRow c list_windows ⊤ t) estimates

/-- Minimum of the entries of `t` at confidence `c` over the windows of `l`
(`⊤` for the empty list). -/
def running_min (t : Table) (c : ℚ) (l : List ℕ) : ℕ∞ :=
  l.foldl (fun a w => min a (t w c)) ⊤

theorem foldl_min_eq (t : Table) (c : ℚ) (l : List ℕ) :
    ∀ a : ℕ∞, l.foldl (fun x w => min x (t w c)) a
      = min a (l.foldl (fun x w => min x (t w c)) ⊤) := by
  induction l with
  | nil => intro a; simp
  | cons w rest ih =>
    intro a
    show rest.foldl _ (min a (t w c)) = min a (rest.foldl _ (min ⊤ (t w c)))
    rw [ih (min a (t w c)), ih (min ⊤ (t w c)), min_eq_right (le_top : t w c ≤ ⊤),
      min_assoc]

theorem running_min_cons (t : Table) (c : ℚ) (w : ℕ) (rest : List ℕ) :
    running_min t c (w :: rest) = min (t w c) (running_min t c rest) := by
  show rest.foldl _ (min ⊤ (t w c)) = _
  rw [foldl_min_eq, min_eq_right (le_top : t w c ≤ ⊤)]
  rfl

theorem running_min_le_of_mem (t : Table) (c : ℚ) (l : List ℕ) (x : ℕ) :
    x ∈ l → running_min t c l ≤ t x c := by
  induction l with
  | nil => intro hx; cases hx
  | cons w rest ih =>
    intro hx
    rw [running_min_cons]
    rcases List.mem_cons.mp hx with rfl | hm
    · exact min_le_left _ _
    · exact le_trans (min_le_right _ _) (ih hm)

theorem running_min_append (t : Table) (c : ℚ) (l1 l2 : List ℕ) :
    running_min t c (l1 ++ l2) = min (running_min t c l1) (running_min t c l2) := by
  unfold running_min
  rw [List.foldl_append, foldl_min_eq]

theorem running_min_congr (t t' : Table) (c : ℚ) (l : List ℕ)
    (h : ∀ w ∈ l, t' w c = t w c) : running_min t' c l = running_min t c l := by
  induction l with
  | nil => rfl
  | cons w rest ih =>
    rw [running_min_cons, running_min_cons, h w (List.mem_cons_self _ _),
      ih fun x hx => h x (List.mem_cons_of_mem _ hx)]

theorem correctionRow_untouched (confidence : ℚ) (ws : List ℕ) :
    ∀ (acc : ℕ∞) (t : Table) (d : ℕ) (c : ℚ), d ∉ ws ∨ c ≠ confidence →
      correctionRow confidence ws acc t d c = t d c := by
  induction ws with
  | nil => intro acc t d c _; rfl
  | cons w rest ih =>
    intro acc t d c h
    have h2 : d ∉ rest ∨ c ≠ confidence := by
      rcases h with h | h
      · exact Or.inl fun hm => h (List.mem_cons_of_mem _ hm)
      · exact Or.inr h
    show correctionRow confidence rest _ _ d c = t d c
    rw [ih _ _ d c h2]
    unfold tableUpdate
    rw [if_neg ?_]
    rintro ⟨rfl, rfl⟩
    rcases h with h | h
    · exact h (List.mem_cons_self _ _)
    · exact h rfl

theorem correctionRow_get (confidence : ℚ) (ws : List ℕ) (hnd : ws.Nodup) :
    ∀ (acc : ℕ∞) (t : Table) (i : Fin ws.length),
      correctionRow confidence ws acc t (ws.get i) confidence
        = min acc (running_min t confidence (ws.take ((i : ℕ) + 1))) := by
  induction ws with
  | nil => intro acc t i; exact absurd i.isLt (by simp)
  | cons w rest ih =>
    intro acc t i
    have hw : w ∉ rest := (List.nodup_cons.mp hnd).1
    have hrest : rest.Nodup := (List.nodup_cons.mp hnd).2
    rcases i with ⟨iv, hi⟩
    cases iv with
    | zero =>
      show correctionRow confidence rest _ _ w confidence = _
      rw [correctionRow_untouched confidence rest _ _ w confidence (Or.inl hw)]
      unfold tableUpdate
      rw [if_pos ⟨rfl, rfl⟩]
      have h1 : ((w :: rest).take 1) = [w] := rfl
      rw [h1, running_min_cons,
        show running_min t confidence [] = ⊤ from rfl,
        min_eq_left (le_top : t w confidence ≤ ⊤)]
    | succ j =>
      have hj : j < rest.length := Nat.lt_of_succ_lt_succ hi
      show correctionRow confidence rest _ _ (rest.get ⟨j, hj⟩) confidence = _
      rw [ih hrest _ _ ⟨j, hj⟩]
      have hcong : running_min
          (tableUpdate t w confidence (min acc (t w confidence))) confidence
          (rest.take (j + 1)) = running_min t confidence (rest.take (j + 1)) := by
        refine running_min_congr _ _ _ _ fun x hx => ?_
        unfold tableUpdate
        rw [if_neg ?_]
        rintro ⟨rfl, -⟩
        exact hw (List.mem_of_mem_take hx)
      rw [hcong,
        show ((w :: rest).take (j + 1 + 1)) = w :: rest.take (j + 1) from rfl,
        running_min_cons, min_assoc]

theorem correction_foldl_untouched (ws : List ℕ) (c : ℚ) :
    ∀ cs : List ℚ, c ∉ cs → ∀ (t : Table) (d : ℕ),
      correction_decreasing_fees t ws cs d c = t d c := by
  intro cs
  induction cs with
  | nil => intro _ t d; rfl
  | cons c0 rest ih =>
    intro hc t d
    have hc0 : c ≠ c0 := fun h => hc (h ▸ List.mem_cons_self _ _)
    have hcr : c ∉ rest := fun h => hc (List.mem_cons_of_mem _ h)
    show correction_decreasing_fees (correctionRow c0 ws ⊤ t) ws rest d c = t d c
    rw [ih hcr, correctionRow_untouched c0 ws ⊤ t d c (Or.inr hc0)]

theorem correctionRow_congr_col (confidence : ℚ) (ws : List ℕ) :
    ∀ (acc : ℕ∞) (t t' : Table), (∀ d, t d confidence = t' d confidence) →
      ∀ d, correctionRow confidence ws acc t d confidence
        = correctionRow confidence ws acc t' d confidence := by
  induction ws with
  | nil => intro acc t t' h d; exact h d
  | cons w rest ih =>
    intro acc t t' h d
    show correctionRow confidence rest _ _ d confidence
      = correctionRow confidence rest _ _ d confidence
    rw [h w]
    refine ih _ _ _ (fun d' => ?_) d
    unfold tableUpdate
    by_cases hd : d' = w ∧ confidence = confidence
    · rw [if_pos hd, if_pos hd]
    · rw [if_neg hd, if_neg hd]
      exact h d'

theorem correction_col (ws : List ℕ) (c : ℚ) :
    ∀ cs : List ℚ, cs.Nodup → c ∈ cs → ∀ (t : Table) (d : ℕ),
      correction_decreasing_fees t ws cs d c = correctionRow c ws ⊤ t d c := by
  intro cs
  induction cs with
  | nil => intro _ hc; cases hc
  | cons c0 rest ih =>
    intro hnd hc t d
    rcases List.mem_cons.mp hc with rfl | hcr
    · have hcnr : c ∉ rest := (List.nodup_cons.mp hnd).1
      show correction_decreasing_fees (correctionRow c ws ⊤ t) ws rest d c = _
      rw [correction_foldl_untouched ws c rest hcnr]
    · have hne : c ≠ c0 := fun h => (List.nodup_cons.mp hnd).1 (h ▸ hcr)
      show correction_decreasing_fees (correctionRow c0 ws ⊤ t) ws rest d c = _
      rw [ih (List.nodup_cons.mp hnd).2 hcr]
      exact correctionRow_congr_col c ws ⊤ _ t
        (fun d' => correctionRow_untouched c0 ws ⊤ t d' c (Or.inr hne)) d

theorem running_min_take_le (t : Table) (c : ℚ) (l : List ℕ) (i j : ℕ) (h : i ≤ j) :
    running_min t c (l.take (j + 1)) ≤ running_min t c (l.take (i + 1)) := by
  calc running_min t c (l.take (j + 1))
      = min (running_min t c ((l.take (j + 1)).take (i + 1)))
          (running_min t c ((l.take (j + 1)).drop (i + 1))) := by
        conv_lhs => rw [← List.take_append_drop (i + 1) (l.take (j + 1))]
        rw [running_min_append]
    _ ≤ running_min t c ((l.take (j + 1)).take (i + 1)) := min_le_left _ _
    _ = running_min t c (l.take (i + 1)) := by
        rw [List.take_take, min_eq_left (Nat.succ_le_succ h)]

theorem get_mem_take (l : List ℕ) (i : Fin l.length) : l.get i ∈ l.take ((i : ℕ) + 1) := by
  induction l with
  | nil => exact absurd i.isLt (by simp)
  | cons w rest ih =>
    rcases i with ⟨iv, hi⟩
    cases iv with
    | zero => exact List.mem_cons_self _ _
    | succ j =>
      exact List.mem_cons_of_mem _ (ih ⟨j, Nat.lt_of_succ_lt_succ hi⟩)

/-- C4: after `correction_decreasing_fees`, for every confidence in the list and
every window at position `i` of the (duplicate-free) window list, the entry equals
the minimum of the pre-correction entries over the windows up to and including
position `i`; hence the corrected entries are non-increasing along the window list
and never exceed their pre-correction values. -/
theorem C4_correction (estimates : Table) (list_windows : List ℕ)
    (list_confidence : List ℚ) (hw : list_windows.Nodup) (hcs : list_confidence.Nodup)
    (confidence : ℚ) (hc : confidence ∈ list_confidence) :
    (∀ i : Fin list_windows.length,
        correction_decreasing_fees estimates list_windows list_confidence
            (list_windows.get i) confidence
          = running_min estimates confidence (list_windows.take ((i : ℕ) + 1))) ∧
    (∀ i j : Fin list_windows.length, (i : ℕ) ≤ (j : ℕ) →
        correction_decreasing_fees estimates list_windows list_confidence
            (list_windows.get j) confidence
          ≤ correction_decreasing_fees estimates list_windows list_confidence
            (list_windows.get i) confidence) ∧
    (∀ i : Fin list_windows.length,
        correction_decreasing_fees estimates list_windows list_confidence
            (list_windows.get i) confidence
          ≤ estimates (list_windows.get i) confidence) := by
  have hmain : ∀ i : Fin list_windows.length,
      correction_decreasing_fees estimates list_windows list_confidence
          (list_windows.get i) confidence
        = running_min estimates confidence (list_windows.take ((i : ℕ) + 1)) := by
    intro i
    rw [correction_col list_windows confidence list_confidence hcs hc,
      correctionRow_get confidence list_windows hw ⊤ estimates i,
      min_eq_right le_top]
  refine ⟨hmain, fun i j hij => ?_, fun i => ?_⟩
  · rw [hmain i, hmain j]
    exact running_min_take_le _ _ _ _ _ hij
  · rw [hmain i]
    exact running_min_le_of_mem _ _ _ _ (get_mem_take list_windows i)

def tableW : Table := fun d _ => (d : ℕ∞)

/-- C4 witness: the theorem applied to a concrete table, windows `[30, 60]` in
ascending order and the single confidence `1/2`, at positions 0 and 1. -/
theorem C4_witness :
    (correction_decreasing_fees tableW [30, 60] [1/2] 60 (1/2)
        = running_min tableW (1/2) [30, 60]) ∧
    (correction_decreasing_fees tableW [30, 60] [1/2] 60 (1/2)
        ≤ correction_decreasing_fees tableW [30, 60] [1/2] 30 (1/2)) ∧
    (correction_decreasing_fees tableW [30, 60] [1/2] 60 (1/2) ≤ tableW 60 (1/2)) :=
  ⟨(C4_correction tableW [30, 60] [1/2] (by decide) (List.nodup_singleton _) (1/2)
      (List.mem_singleton.mpr rfl)).1 ⟨1, by decide⟩,
    (C4_correction tableW [30, 60] [1/2] (by decide) (List.nodup_singleton _) (1/2)
      (List.mem_singleton.mpr rfl)).2.1 ⟨0, by decide⟩ ⟨1, by decide⟩ (by decide),
    (C4_correction tableW [30, 60] [1/2] (by decide) (List.nodup_singleton _) (1/2)
      (List.mem_singleton.mpr rfl)).2.2 ⟨1, by decide⟩⟩

/-! ### flow.py — Poisson block-arrival model -/

/-- `scipy.stats.poisson(expected).cdf(blocks)`: the Poisson cumulative distribution
function `exp (-expected) * Σ_{i ≤ blocks} expected^i / i!`, over the reals. -/
noncomputable def poisson_cdf (expected : ℝ) (blocks : ℕ) : ℝ :=
  Real.exp (-expected) *
    ∑ i ∈ Finset.range (blocks + 1), expected ^ i / (Nat.factorial i)

/-- `get_prob_of_min_blocks`: probability of finding more than `blocks` blocks within
`minutes` minutes. -/
noncomputable def get_prob_of_min_blocks (minutes : ℚ) (blocks : ℕ) : ℝ :=
  1 - poisson_cdf ((minutes : ℝ) / ((TARGET_BLOCK_TIME_MINUTES : ℚ) : ℝ)) blocks

/-- `get_min_expected_blocks`: the `while` loop increments `blocks` from 0 and exits
at the first count whose survival probability drops below `target_prob`, so whenever
it terminates it returns the least element of its exit set, embedded here as `sInf`
(0 when the loop never exits). -/
noncomputable def get_min_expected_blocks (minutes : ℚ) (target_prob : ℚ) : ℕ :=
  sInf {blocks : ℕ | get_prob_of_min_blocks minutes blocks < (target_prob : ℝ)}

theorem hasSum_exp_series (x : ℝ) :
    HasSum (fun n : ℕ => x ^ n / (Nat.factorial n)) (Real.exp x) := by
  have h := NormedSpace.expSeries_div_hasSum_exp (𝕂 := ℝ) x
  rwa [← Real.exp_eq_exp_ℝ] at h

theorem poisson_cdf_tendsto (lam : ℝ) :
    Filter.Tendsto (fun k => poisson_cdf lam k) Filter.atTop (nhds 1) := by
  have h1 : Filter.Tendsto
      (fun n => ∑ i ∈ Finset.range n, lam ^ i / (Nat.factorial i))
      Filter.atTop (nhds (Real.exp lam)) := (hasSum_exp_series lam).tendsto_sum_nat
  have h2 : Filter.Tendsto
      (fun k : ℕ => ∑ i ∈ Finset.range (k + 1), lam ^ i / (Nat.factorial i))
      Filter.atTop (nhds (Real.exp lam)) := h1.comp (Filter.tendsto_add_atTop_nat 1)
  have h3 := h2.const_mul (Real.exp (-lam))
  rw [← Real.exp_add, neg_add_cancel, Real.exp_zero] at h3
  exact h3

theorem exists_prob_lt (minutes : ℚ) (p : ℝ) (hp : 0 < p) :
    ∃ k : ℕ, get_prob_of_min_blocks minutes k < p := by
  have h : Filter.Tendsto
      (fun k => 1 - poisson_cdf ((minutes : ℝ) / ((TARGET_BLOCK_TIME_MINUTES : ℚ) : ℝ)) k)
      Filter.atTop (nhds 0) := by
    have h0 : Filter.Tendsto (fun _ : ℕ => (1 : ℝ)) Filter.atTop (nhds 1) :=
      tendsto_const_nhds
    have h4 := h0.sub
      (poisson_cdf_tendsto ((minutes : ℝ) / ((TARGET_BLOCK_TIME_MINUTES : ℚ) : ℝ)))
    simpa using h4
  exact (h.eventually_lt_const hp).exists

theorem sum_range_le_exp (lam : ℝ) (hlam : 0 ≤ lam) (n : ℕ) :
    ∑ i ∈ Finset.range n, lam ^ i / (Nat.factorial i) ≤ Real.exp lam :=
  sum_le_hasSum (Finset.range n) (fun i _ => by positivity) (hasSum_exp_series lam)

theorem poisson_cdf_le_one (lam : ℝ) (hlam : 0 ≤ lam) (k : ℕ) :
    poisson_cdf lam k ≤ 1 := by
  unfold poisson_cdf
  have h1 : Real.exp (-lam) *
      (∑ i ∈ Finset.range (k + 1), lam ^ i / (Nat.factorial i))
      ≤ Real.exp (-lam) * Real.exp lam :=
    mul_le_mul_of_nonneg_left (sum_range_le_exp lam hlam (k + 1)) (Real.exp_pos _).le
  rwa [← Real.exp_add, neg_add_cancel, Real.exp_zero] at h1

theorem prob_nonneg (minutes : ℚ) (hm : 0 ≤ minutes) (k : ℕ) :
    0 ≤ get_prob_of_min_blocks minutes k := by
  unfold get_prob_of_min_blocks
  have hlam : 0 ≤ (minutes : ℝ) / ((TARGET_BLOCK_TIME_MINUTES : ℚ) : ℝ) := by
    apply div_nonneg
    · exact_mod_cast hm
    · norm_num [TARGET_BLOCK_TIME_MINUTES]
  linarith [poisson_cdf_le_one _ hlam k]

/-- C10: for `minutes ≥ 0` the search loop of `get_min_expected_blocks` terminates
exactly when `target_prob > 0`: the Poisson survival probability eventually drops
below any positive `target_prob`, the returned count is the first block count at
which it does, and no earlier count satisfies the exit test; for `target_prob ≤ 0`
no block count ever satisfies the exit test, so the loop never exits. -/
theorem C10_termination (minutes target_prob : ℚ) (hm : 0 ≤ minutes) :
    (0 < target_prob →
      get_prob_of_min_blocks minutes (get_min_expected_blocks minutes target_prob)
          < (target_prob : ℝ) ∧
        ∀ k : ℕ, k < get_min_expected_blocks minutes target_prob →
          ¬ get_prob_of_min_blocks minutes k < (target_prob : ℝ)) ∧
    (target_prob ≤ 0 → ∀ k : ℕ,
      ¬ get_prob_of_min_blocks minutes k < (target_prob : ℝ)) := by
  constructor
  · intro hp
    have hpr : (0 : ℝ) < (target_prob : ℝ) := by exact_mod_cast hp
    have hne : {k : ℕ | get_prob_of_min_blocks minutes k < (target_prob : ℝ)}.Nonempty :=
      exists_prob_lt minutes _ hpr
    exact ⟨Nat.sInf_mem hne, fun k hk => Nat.not_mem_of_lt_sInf hk⟩
  · intro hp k hlt
    have h0 : (target_prob : ℝ) ≤ 0 := by exact_mod_cast hp
    exact absurd hlt (not_lt.mpr (le_trans h0 (prob_nonneg minutes hm k)))

/-- C10 witness: the theorem applied at window 30 minutes with exit probability 1/2
(loop exits at the returned count) and with non-positive probability -1 (no count
exits). -/
theorem C10_witness :
    (get_prob_of_min_blocks 30 (get_min_expected_blocks 30 (1/2)) < ((1/2 : ℚ) : ℝ)) ∧
    ¬ get_prob_of_min_blocks 30 5 < ((-1 : ℚ) : ℝ) :=
  ⟨((C10_termination 30 (1/2) (by norm_num)).1 (by norm_num)).1,
    (C10_termination 30 (-1) (by norm_num)).2 (by norm_num) 5⟩

/-! #### Claim C2 — monotonicity of `get_min_expected_blocks` in the confidence -/

theorem exp_three_bounds : (19 : ℝ) < Real.exp 3 ∧ Real.exp 3 < 26 := by
  have hexp3 : Real.exp 3 = Real.exp 1 ^ 3 := by
    rw [← Real.exp_nat_mul]
    norm_num
  have h1 : (2.71 : ℝ) < Real.exp 1 := lt_trans (by norm_num) Real.exp_one_gt_d9
  have h2 : Real.exp 1 < (2.72 : ℝ) := lt_trans Real.exp_one_lt_d9 (by norm_num)
  constructor
  · rw [hexp3]
    have h3 := pow_lt_pow_left₀ h1 (by norm_num : (0 : ℝ) ≤ 2.71) (by norm_num : 3 ≠ 0)
    norm_num at h3
    linarith
  · rw [hexp3]
    have h3 := pow_lt_pow_left₀ h2 (Real.exp_pos 1).le (by norm_num : 3 ≠ 0)
    norm_num at h3
    linarith

theorem prob_thirty (k : ℕ) : get_prob_of_min_blocks 30 k
    = 1 - Real.exp (-3) * ∑ i ∈ Finset.range (k + 1), (3 : ℝ) ^ i / (Nat.factorial i) := by
  unfold get_prob_of_min_blocks poisson_cdf
  norm_num [TARGET_BLOCK_TIME_MINUTES]

/-- C2 counterexample: the claimed direction of monotonicity fails on the code: with
`c1 = 9/10 ≥ 1/2 = c2`, `get_min_expected_blocks 30 (9/10) = 1` is strictly *less*
than `get_min_expected_blocks 30 (1/2) = 3`. -/
theorem C2_counterexample :
    get_min_expected_blocks 30 (9/10) < get_min_expected_blocks 30 (1/2) := by
  obtain ⟨hlo, hhi⟩ := exp_three_bounds
  have e3pos : (0 : ℝ) < Real.exp 3 := Real.exp_pos 3
  have hinvpos : (0 : ℝ) < (Real.exp 3)⁻¹ := inv_pos.mpr e3pos
  have hprod : Real.exp 3 * (Real.exp 3)⁻¹ = 1 := mul_inv_cancel₀ (ne_of_gt e3pos)
  have hneg : Real.exp (-3 : ℝ) = (Real.exp 3)⁻¹ := Real.exp_neg 3
  have s1 : ∑ i ∈ Finset.range 1, (3 : ℝ) ^ i / (Nat.factorial i) = 1 := by
    simp
  have s2 : ∑ i ∈ Finset.range 2, (3 : ℝ) ^ i / (Nat.factorial i) = 4 := by
    rw [Finset.sum_range_succ, s1]
    norm_num [Nat.factorial]
  have s3 : ∑ i ∈ Finset.range 3, (3 : ℝ) ^ i / (Nat.factorial i) = 17/2 := by
    rw [Finset.sum_range_succ, s2]
    norm_num [Nat.factorial]
  have s4 : ∑ i ∈ Finset.range 4, (3 : ℝ) ^ i / (Nat.factorial i) = 13 := by
    rw [Finset.sum_range_succ, s3]
    norm_num [Nat.factorial]
  have mem1 : get_prob_of_min_blocks 30 1 < ((9/10 : ℚ) : ℝ) := by
    rw [prob_thirty 1, hneg]
    show 1 - (Real.exp 3)⁻¹ * ∑ i ∈ Finset.range 2, (3 : ℝ) ^ i / (Nat.factorial i) < _
    rw [s2]
    push_cast
    nlinarith [mul_pos (sub_pos.mpr hhi) hinvpos]
  have notmem0w : ¬ get_prob_of_min_blocks 30 0 < ((1/2 : ℚ) : ℝ) := by
    rw [prob_thirty 0, hneg, s1]
    push_cast
    nlinarith [mul_pos (sub_pos.mpr (by linarith : (2:ℝ) < Real.exp 3)) hinvpos]
  have notmem1w : ¬ get_prob_of_min_blocks 30 1 < ((1/2 : ℚ) : ℝ) := by
    rw [prob_thirty 1, hneg, s2]
    push_cast
    nlinarith [mul_pos (sub_pos.mpr (by linarith : (8:ℝ) < Real.exp 3)) hinvpos]
  have mem3 : get_prob_of_min_blocks 30 3 < ((1/2 : ℚ) : ℝ) := by
    rw [prob_thirty 3, hneg, s4]
    push_cast
    nlinarith [mul_pos (sub_pos.mpr hhi) hinvpos]
  have hle1 : get_min_expected_blocks 30 (9/10) ≤ 1 := Nat.sInf_le mem1
  have hge2 : 2 ≤ get_min_expected_blocks 30 (1/2) := by
    by_contra h
    push_neg at h
    have hne : {k : ℕ | get_prob_of_min_blocks 30 k < ((1/2 : ℚ) : ℝ)}.Nonempty := ⟨3, mem3⟩
    have hmem := Nat.sInf_mem hne
    have : get_min_expected_blocks 30 (1/2) = 0 ∨ get_min_expected_blocks 30 (1/2) = 1 := by
      unfold get_min_expected_blocks at h ⊢
      omega
    rcases this with h0 | h1
    · rw [show sInf {k : ℕ | get_prob_of_min_blocks 30 k < ((1/2 : ℚ) : ℝ)} = 0 from h0] at hmem
      exact notmem0w hmem
    · rw [show sInf {k : ℕ | get_prob_of_min_blocks 30 k < ((1/2 : ℚ) : ℝ)} = 1 from h1] at hmem
      exact notmem1w hmem
  omega

/-- C2 (amended): `get_min_expected_blocks` is *antitone* in the confidence: for a
fixed window `m ≥ 0` and confidences `0 < c2 ≤ c1 ≤ 1`,
`get_min_expected_blocks m c1 ≤ get_min_expected_blocks m c2` — demanding a higher
confidence yields at most as many guaranteed blocks. -/
theorem C2_antitone (m c1 c2 : ℚ) (hm : 0 ≤ m) (h2 : 0 < c2) (h21 : c2 ≤ c1)
    (h11 : c1 ≤ 1) :
    get_min_expected_blocks m c1 ≤ get_min_expected_blocks m c2 := by
  have hne : {k : ℕ | get_prob_of_min_blocks m k < (c2 : ℝ)}.Nonempty :=
    exists_prob_lt m _ (by exact_mod_cast h2)
  have hmem : get_prob_of_min_blocks m
      (sInf {k : ℕ | get_prob_of_min_blocks m k < (c2 : ℝ)}) < (c2 : ℝ) :=
    Nat.sInf_mem hne
  have hc : ((c2 : ℚ) : ℝ) ≤ ((c1 : ℚ) : ℝ) := by exact_mod_cast h21
  have hmem1 : get_prob_of_min_blocks m (get_min_expected_blocks m c2) < (c1 : ℝ) :=
    lt_of_lt_of_le hmem hc
  exact Nat.sInf_le hmem1

/-- C2 witness: the amended theorem applied at window 30 with confidences
`c1 = 9/10 ≥ c2 = 1/2`. -/
theorem C2_witness :
    (0 : ℚ) ≤ 30 ∧ (0 : ℚ) < 1/2 ∧ (1/2 : ℚ) ≤ 9/10 ∧ (9/10 : ℚ) ≤ 1 ∧
      get_min_expected_blocks 30 (9/10) ≤ get_min_expected_blocks 30 (1/2) :=
  ⟨by norm_num, by norm_num, by norm_num, by norm_num,
    C2_antitone 30 (9/10) (1/2) (by norm_num) (by norm_num) (by norm_num) (by norm_num)⟩

/-! ### flow.py — estimation pipeline -/

/-- `compute_bucket`: the simulated bucket empties iff the start weight plus the
weight gained over the interval minus the weight drained by the minimum expected
number of blocks is `≤ 0`. -/
noncomputable def compute_bucket (minutes confidence start_weight
    weight_incr_rate_per_min : ℚ) : Prop :=
  start_weight + (weight_incr_rate_per_min * minutes
    - (BLOCK_CAPACITY_WU : ℚ) * (get_min_expected_blocks minutes confidence : ℚ)) ≤ 0

theorem compute_bucket_iff (minutes confidence s w : ℚ) :
    compute_bucket minutes confidence s w ↔
      s + w * minutes - (get_min_expected_blocks minutes confidence : ℚ) *
        (BLOCK_CAPACITY_WU : ℚ) ≤ 0 := by
  unfold compute_bucket
  constructor <;> intro h <;> linarith

/-- Python dict read `flow[minutes]`; the `KeyError` case is unreachable under the
coverage hypotheses of the claims, so an empty bucket stands in for a missing key. -/
def flow_get (flow : List (ℕ × FeeBuckets)) (minutes : ℕ) : FeeBuckets :=
  match flow with
  | [] => FeeBuckets.empty
  | p :: rest => if p.1 = minutes then p.2 else flow_get rest minutes

/-- Membership of a window among the keys of the flow dict. -/
def flow_hasKey (flow : List (ℕ × FeeBuckets)) (minutes : ℕ) : Bool :=
  flow.any (fun p => p.1 == minutes)

/-- `max(map(lambda x: flow[x].max_fee_rate(), flow))`: Python's `max` over the
per-flow maxima; every `max_fee_rate` is `≥ 0`, so folding `max` from 0 agrees with
Python's `max` on every nonempty flow dict (Python raises on an empty one, which the
claims exclude). -/
def max_fee_rate_in_flow (flow : List (ℕ × FeeBuckets)) : ℤ :=
  (flow.map (fun p => p.2.max_fee_rate)).foldl max 0

/-- `max_fee_rate = max(mempool.max_fee_rate(), max_fee_rate_in_flow)`. -/
def overall_max_fee_rate (mempool : FeeBuckets) (flow : List (ℕ × FeeBuckets)) : ℤ :=
  max mempool.max_fee_rate (max_fee_rate_in_flow flow)

open Classical in
/-- The first element of the list satisfying `p`, or `⊤` when none does: the value
the `for fee_rate in range(...)` / `break` search leaves in
`min_fee_rate_that_works` (`POSITIVE_INFINITY` when the loop never breaks). -/
noncomputable def first_hit (p : ℕ → Prop) : List ℕ → ℕ∞
  | [] => ⊤
  | r :: rest => if p r then (r : ℕ∞) else first_hit p rest

/-- The pre-correction table of `compute_estimates_by_minute`: for each window and
confidence, scan fee rates `1 .. max_fee_rate+1` (Python `range(1, max_fee_rate+2)`)
and keep the first that empties the simulated bucket. -/
noncomputable def compute_estimates_pre (mempool : FeeBuckets)
    (flow : List (ℕ × FeeBuckets)) : Table :=
  fun minutes confidence =>
    first_hit
      (fun fee_rate => compute_bucket (minutes : ℚ) confidence
        (mempool.get_aggregate_sup (fee_rate : ℤ))
        ((flow_get flow minutes).get_aggregate_sup (fee_rate : ℤ)))
      (List.range' 1 (overall_max_fee_rate mempool flow + 1).toNat)

/-- `compute_estimates_by_minute`: the pre-correction table with the decreasing-fee
correction applied over the target windows and `TARGETS_CONFIDENCE` (the nested dict
holds entries exactly at those keys; the claims address only those entries). -/
noncomputable def compute_estimates_by_minute (mempool : FeeBuckets)
    (flow : List (ℕ × FeeBuckets)) (targets_minute : List ℕ) : Table :=
  correction_decreasing_fees (compute_estimates_pre mempool flow)
    targets_minute TARGETS_CONFIDENCE

theorem flow_get_mem_or_empty (flow : List (ℕ × FeeBuckets)) (m : ℕ) :
    (m, flow_get flow m) ∈ flow ∨ flow_get flow m = FeeBuckets.empty := by
  induction flow with
  | nil => exact Or.inr rfl
  | cons p rest ih =>
    show (m, if p.1 = m then p.2 else flow_get rest m) ∈ p :: rest ∨
      (if p.1 = m then p.2 else flow_get rest m) = FeeBuckets.empty
    by_cases h : p.1 = m
    · rw [if_pos h]
      left
      have hpe : (m, p.2) = p := by rw [← h]
      rw [hpe]
      exact List.mem_cons_self _ _
    · rw [if_neg h]
      rcases ih with h1 | h1
      · exact Or.inl (List.mem_cons_of_mem _ h1)
      · exact Or.inr h1

theorem flow_bucket_max_le (flow : List (ℕ × FeeBuckets)) (q : ℕ × FeeBuckets)
    (hq : q ∈ flow) : q.2.max_fee_rate ≤ max_fee_rate_in_flow flow :=
  le_foldl_max_of_mem _ _ (List.mem_map_of_mem _ hq) 0

/-- At fee rate `overall_max_fee_rate + 1`, both aggregate sums vanish and the
simulated bucket always empties (the removed weight is non-negative). -/
theorem pred_holds_at_top (mempool : FeeBuckets) (flow : List (ℕ × FeeBuckets))
    (minutes : ℕ) (confidence : ℚ) :
    compute_bucket (minutes : ℚ) confidence
      (mempool.get_aggregate_sup (overall_max_fee_rate mempool flow + 1))
      ((flow_get flow minutes).get_aggregate_sup
        (overall_max_fee_rate mempool flow + 1)) := by
  have h1 : mempool.get_aggregate_sup (overall_max_fee_rate mempool flow + 1) = 0 := by
    apply FeeBuckets.get_aggregate_sup_eq_zero
    intro p hp
    have ha := FeeBuckets.key_le_max_fee_rate mempool p hp
    have hb : mempool.max_fee_rate ≤ overall_max_fee_rate mempool flow := le_max_left _ _
    omega
  have h2 : (flow_get flow minutes).get_aggregate_sup
      (overall_max_fee_rate mempool flow + 1) = 0 := by
    apply FeeBuckets.get_aggregate_sup_eq_zero
    intro p hp
    rcases flow_get_mem_or_empty flow minutes with hmem | hemp
    · have ha := FeeBuckets.key_le_max_fee_rate (flow_get flow minutes) p hp
      have hb := flow_bucket_max_le flow (minutes, flow_get flow minutes) hmem
      have hc : max_fee_rate_in_flow flow ≤ overall_max_fee_rate mempool flow :=
        le_max_right _ _
      simp only at hb
      omega
    · rw [hemp] at hp
      cases hp
  rw [h1, h2]
  unfold compute_bucket
  have hcap : (0 : ℚ) ≤ (BLOCK_CAPACITY_WU : ℚ) *
      (get_min_expected_blocks (minutes : ℚ) confidence : ℚ) := by
    apply mul_nonneg
    · norm_num [BLOCK_CAPACITY_WU]
    · exact_mod_cast Nat.zero_le _
  linarith [hcap]

theorem first_hit_range' (p : ℕ → Prop) :
    ∀ n s : ℕ, (∃ r ∈ List.range' s n, p r) →
      ∃ m : ℕ, first_hit p (List.range' s n) = (m : ℕ∞) ∧ p m ∧ s ≤ m ∧ m < s + n ∧
        ∀ x : ℕ, s ≤ x → p x → m ≤ x := by
  intro n
  induction n with
  | zero => intro s hex; simp [List.range'] at hex
  | succ k ih =>
    intro s hex
    by_cases hp : p s
    · refine ⟨s, ?_, hp, le_rfl, by omega, fun x hx _ => hx⟩
      show first_hit p (s :: List.range' (s + 1) k) = (s : ℕ∞)
      simp only [first_hit]
      rw [if_pos hp]
    · have hex2 : ∃ r ∈ List.range' (s + 1) k, p r := by
        rcases hex with ⟨r, hr2, hpr⟩
        have hr3 : r ∈ s :: List.range' (s + 1) k := hr2
        rcases List.mem_cons.mp hr3 with rfl | hmm
        · exact absurd hpr hp
        · exact ⟨r, hmm, hpr⟩
      obtain ⟨mm, hm1, hm2, hm3, hm4, hm5⟩ := ih (s + 1) hex2
      refine ⟨mm, ?_, hm2, by omega, by omega, ?_⟩
      · show first_hit p (s :: List.range' (s + 1) k) = (mm : ℕ∞)
        simp only [first_hit]
        rw [if_neg hp, hm1]
      · intro x hx hpx
        rcases Nat.eq_or_lt_of_le hx with rfl | hlt
        · exact absurd hpx hp
        · exact hm5 x hlt hpx

/-- C1: for a mempool bucket, a flow map providing a bucket for each target window,
a window `m` in the target list and a confidence `c` of `TARGETS_CONFIDENCE` with
`0 < c ≤ 1`, the pre-correction entry of `compute_estimates_by_minute` at `(m, c)`
is the minimum fee rate `r ≥ 1` such that
`mempool.get_aggregate_sup r + flow[m].get_aggregate_sup r * m -
 get_min_expected_blocks m c * BLOCK_CAPACITY_WU ≤ 0`:
the loop scans `r` upward from 1 and keeps the first rate at which `compute_bucket`
reports the bucket empty. -/
theorem C1_min_fee_search (mempool : FeeBuckets) (flow : List (ℕ × FeeBuckets))
    (targets_minute : List ℕ) (m : ℕ) (c : ℚ) (hm : m ∈ targets_minute)
    (hcov : ∀ t ∈ targets_minute, flow_hasKey flow t = true)
    (hc : c ∈ TARGETS_CONFIDENCE) (hc0 : 0 < c) (hc1 : c ≤ 1) :
    ∃ n : ℕ, compute_estimates_pre mempool flow m c = (n : ℕ∞) ∧ 1 ≤ n ∧
      (mempool.get_aggregate_sup (n : ℤ) +
        (flow_get flow m).get_aggregate_sup (n : ℤ) * (m : ℚ) -
        (get_min_expected_blocks (m : ℚ) c : ℚ) * (BLOCK_CAPACITY_WU : ℚ) ≤ 0) ∧
      ∀ r : ℕ, 1 ≤ r →
        (mempool.get_aggregate_sup (r : ℤ) +
          (flow_get flow m).get_aggregate_sup (r : ℤ) * (m : ℚ) -
          (get_min_expected_blocks (m : ℚ) c : ℚ) * (BLOCK_CAPACITY_WU : ℚ) ≤ 0) →
        n ≤ r := by
  have hB0 : 0 ≤ overall_max_fee_rate mempool flow :=
    le_trans (FeeBuckets.max_fee_rate_nonneg mempool) (le_max_left _ _)
  have htopcast : (((overall_max_fee_rate mempool flow + 1).toNat : ℕ) : ℤ)
      = overall_max_fee_rate mempool flow + 1 := Int.toNat_of_nonneg (by omega)
  have htop_mem : (overall_max_fee_rate mempool flow + 1).toNat
      ∈ List.range' 1 ((overall_max_fee_rate mempool flow + 1).toNat) := by
    rw [List.mem_range'_1]
    omega
  have hptop : compute_bucket ((m : ℕ) : ℚ) c
      (mempool.get_aggregate_sup
        ((((overall_max_fee_rate mempool flow + 1).toNat : ℕ) : ℤ)))
      ((flow_get flow m).get_aggregate_sup
        ((((overall_max_fee_rate mempool flow + 1).toNat : ℕ) : ℤ))) := by
    rw [htopcast]
    exact pred_holds_at_top mempool flow m c
  obtain ⟨n, hn1, hn2, hn3, hn4, hn5⟩ :=
    first_hit_range'
      (fun fee_rate => compute_bucket ((m : ℕ) : ℚ) c
        (mempool.get_aggregate_sup (fee_rate : ℤ))
        ((flow_get flow m).get_aggregate_sup (fee_rate : ℤ)))
      ((overall_max_fee_rate mempool flow + 1).toNat) 1
      ⟨(overall_max_fee_rate mempool flow + 1).toNat, htop_mem, hptop⟩
  refine ⟨n, hn1, hn3, (compute_bucket_iff _ _ _ _).mp hn2, fun r hr hpr =>
    hn5 r hr ((compute_bucket_iff _ _ _ _).mpr hpr)⟩

def mempoolW : FeeBuckets := ⟨[(5, 1000000)], by decide, by decide⟩

def flowW : List (ℕ × FeeBuckets) := [(60, FeeBuckets.empty)]

/-- C1 witness: the theorem applied to a concrete mempool of 1,000,000 WU at fee
rate 5, a zero flow for the single target window 60, and confidence 1/2. -/
theorem C1_witness :
    (60 ∈ [60] ∧ (∀ t ∈ [60], flow_hasKey flowW t = true) ∧
      (1/2 : ℚ) ∈ TARGETS_CONFIDENCE ∧ (0 : ℚ) < 1/2 ∧ (1/2 : ℚ) ≤ 1) ∧
    ∃ n : ℕ, compute_estimates_pre mempoolW flowW 60 (1/2) = (n : ℕ∞) ∧ 1 ≤ n ∧
      (mempoolW.get_aggregate_sup (n : ℤ) +
        (flow_get flowW 60).get_aggregate_sup (n : ℤ) * ((60 : ℕ) : ℚ) -
        (get_min_expected_blocks ((60 : ℕ) : ℚ) (1/2) : ℚ) *
          (BLOCK_CAPACITY_WU : ℚ) ≤ 0) ∧
      ∀ r : ℕ, 1 ≤ r →
        (mempoolW.get_aggregate_sup (r : ℤ) +
          (flow_get flowW 60).get_aggregate_sup (r : ℤ) * ((60 : ℕ) : ℚ) -
          (get_min_expected_blocks ((60 : ℕ) : ℚ) (1/2) : ℚ) *
            (BLOCK_CAPACITY_WU : ℚ) ≤ 0) →
        n ≤ r :=
  ⟨⟨by decide, by decide, by norm_num [TARGETS_CONFIDENCE], by norm_num, by norm_num⟩,
    C1_min_fee_search mempoolW flowW [60] 60 (1/2) (by decide) (by decide)
      (by norm_num [TARGETS_CONFIDENCE]) (by norm_num) (by norm_num)⟩

/-! #### Claim C9 — the estimates are always finite -/

def EntryBounded (B : ℤ) (v : ℕ∞) : Prop :=
  ∃ n : ℕ, v = (n : ℕ∞) ∧ 1 ≤ n ∧ (n : ℤ) ≤ B

theorem EntryBounded.min_closed {B : ℤ} {x y : ℕ∞} (hx : EntryBounded B x)
    (hy : EntryBounded B y) : EntryBounded B (min x y) := by
  obtain ⟨a, rfl, ha1, ha2⟩ := hx
  obtain ⟨b, rfl, hb1, hb2⟩ := hy
  refine ⟨min a b, (WithTop.coe_min a b).symm ▸ rfl, by omega, ?_⟩
  calc ((min a b : ℕ) : ℤ) ≤ (a : ℤ) := by exact_mod_cast min_le_left a b
    _ ≤ B := ha2

theorem correctionRow_bounded (B : ℤ) (confidence : ℚ) (ws : List ℕ) :
    ∀ (acc : ℕ∞) (t : Table), (acc = ⊤ ∨ EntryBounded B acc) →
      (∀ d, EntryBounded B (t d confidence)) →
      ∀ d, EntryBounded B (correctionRow confidence ws acc t d confidence) := by
  induction ws with
  | nil => intro acc t _ ht d; exact ht d
  | cons w rest ih =>
    intro acc t hacc ht d
    show EntryBounded B (correctionRow confidence rest _ _ d confidence)
    have hmin : EntryBounded B (min acc (t w confidence)) := by
      rcases hacc with rfl | hacc
      · rw [min_eq_right (le_top : t w confidence ≤ ⊤)]
        exact ht w
      · exact hacc.min_closed (ht w)
    refine ih _ _ (Or.inr hmin) (fun d' => ?_) d
    unfold tableUpdate
    by_cases hd : d' = w ∧ confidence = confidence
    · rw [if_pos hd]; exact hmin
    · rw [if_neg hd]; exact ht d'

theorem correction_bounded (B : ℤ) (ws : List ℕ) :
    ∀ (cs : List ℚ) (t : Table), (∀ d c, EntryBounded B (t d c)) →
      ∀ d c, EntryBounded B (correction_decreasing_fees t ws cs d c) := by
  intro cs
  induction cs with
  | nil => intro t ht d c; exact ht d c
  | cons c0 rest ih =>
    intro t ht d c
    show EntryBounded B
      (correction_decreasing_fees (correctionRow c0 ws ⊤ t) ws rest d c)
    refine ih _ (fun d' c' => ?_) d c
    by_cases hc : c' = c0
    · subst hc
      exact correctionRow_bounded B c' ws ⊤ t (Or.inl rfl) (fun d'' => ht d'' c') d'
    · rw [correctionRow_untouched c0 ws ⊤ t d' c' (Or.inr hc)]
      exact ht d' c'

theorem compute_estimates_pre_bounded (mempool : FeeBuckets)
    (flow : List (ℕ × FeeBuckets)) (d : ℕ) (c : ℚ) :
    EntryBounded (overall_max_fee_rate mempool flow + 1)
      (compute_estimates_pre mempool flow d c) := by
  have hB0 : 0 ≤ overall_max_fee_rate mempool flow :=
    le_trans (FeeBuckets.max_fee_rate_nonneg mempool) (le_max_left _ _)
  have htopcast : (((overall_max_fee_rate mempool flow + 1).toNat : ℕ) : ℤ)
      = overall_max_fee_rate mempool flow + 1 := Int.toNat_of_nonneg (by omega)
  have htop_mem : (overall_max_fee_rate mempool flow + 1).toNat
      ∈ List.range' 1 ((overall_max_fee_rate mempool flow + 1).toNat) := by
    rw [List.mem_range'_1]
    omega
  have hptop : compute_bucket ((d : ℕ) : ℚ) c
      (mempool.get_aggregate_sup
        ((((overall_max_fee_rate mempool flow + 1).toNat : ℕ) : ℤ)))
      ((flow_get flow d).get_aggregate_sup
        ((((overall_max_fee_rate mempool flow + 1).toNat : ℕ) : ℤ))) := by
    rw [htopcast]
    exact pred_holds_at_top mempool flow d c
  obtain ⟨n, hn1, hn2, hn3, hn4, hn5⟩ :=
    first_hit_range'
      (fun fee_rate => compute_bucket ((d : ℕ) : ℚ) c
        (mempool.get_aggregate_sup (fee_rate : ℤ))
        ((flow_get flow d).get_aggregate_sup (fee_rate : ℤ)))
      ((overall_max_fee_rate mempool flow + 1).toNat) 1
      ⟨(overall_max_fee_rate mempool flow + 1).toNat, htop_mem, hptop⟩
  exact ⟨n, hn1, hn3, by omega⟩

/-- C9: for any mempool bucket, any flow map providing a bucket for each target
window and any target window and configured confidence, the entry that
`compute_estimates_by_minute` returns is never the infinite "undefined" estimate: at
fee rate `max_fee_rate + 1` both aggregate sums are 0 and `compute_bucket` succeeds
(zero gain minus a non-negative drain is `≤ 0`), so every pre-correction entry — and
the running minima the correction takes of them — is a finite integer between 1 and
`max_fee_rate + 1`. -/
theorem C9_estimates_finite (mempool : FeeBuckets) (flow : List (ℕ × FeeBuckets))
    (targets_minute : List ℕ) (m : ℕ) (c : ℚ) (hm : m ∈ targets_minute)
    (hc : c ∈ TARGETS_CONFIDENCE)
    (hcov : ∀ t ∈ targets_minute, flow_hasKey flow t = true) :
    ∃ n : ℕ, compute_estimates_by_minute mempool flow targets_minute m c = (n : ℕ∞) ∧
      1 ≤ n ∧ (n : ℤ) ≤ overall_max_fee_rate mempool flow + 1 :=
  correction_bounded _ targets_minute TARGETS_CONFIDENCE _
    (fun d c' => compute_estimates_pre_bounded mempool flow d c') m c

def mempoolW9 : FeeBuckets := ⟨[(3, 2000000)], by decide, by decide⟩

def flowW9 : List (ℕ × FeeBuckets) := [(30, FeeBuckets.empty)]

/-- C9 witness: the theorem applied to a concrete mempool, a zero flow for the
single target window 30, and confidence 4/5. -/
theorem C9_witness :
    (30 ∈ [30] ∧ (4/5 : ℚ) ∈ TARGETS_CONFIDENCE ∧
      (∀ t ∈ [30], flow_hasKey flowW9 t = true)) ∧
    ∃ n : ℕ, compute_estimates_by_minute mempoolW9 flowW9 [30] 30 (4/5) = (n : ℕ∞) ∧
      1 ≤ n ∧ (n : ℤ) ≤ overall_max_fee_rate mempoolW9 flowW9 + 1 :=
  ⟨⟨by decide, by norm_num [TARGETS_CONFIDENCE], by decide⟩,
    C9_estimates_finite mempoolW9 flowW9 [30] 30 (4/5) (by decide)
      (by norm_num [TARGETS_CONFIDENCE]) (by decide)⟩

/-! ### bitcoind.py — RPC gateway -/

/-- `BitcoindHttpException`: a node-reported RPC error `{code, message}`. -/
structure BitcoindHttpException where
  code : ℤ
  message : String
deriving DecidableEq

/-- A decoded JSON-RPC response body: the `result` field and the nullable `error`
object. -/
structure RpcResponse (α : Type) where
  result : α
  error : Option BitcoindHttpException

/-- Response handling of `BitcoindClient._process_http`: raise the typed exception
when the `error` field is non-null, otherwise return the `result` field. -/
def process_http {α : Type} (resp : RpcResponse α) : Except BitcoindHttpException α :=
  match resp.error with
  | some e => Except.error e
  | none => Except.ok resp.result

/-- `BitcoindClient.get_raw_transaction`: absorb error code `-5` ("tx not found") as
the absent result `none`; re-raise every other error. -/
def get_raw_transaction {α : Type} (resp : RpcResponse α) :
    Except BitcoindHttpException (Option α) :=
  match process_http resp with
  | Except.error e => if e.code = -5 then Except.ok none else Except.error e
  | Except.ok v => Except.ok (some v)

/-- C7: a `get_raw_transaction` call whose underlying RPC response carries error
code -5 returns the absent value (`none`) instead of raising, while a response
carrying any other non-null error raises a `BitcoindHttpException` carrying that
error's code and message to the caller. -/
theorem C7_not_found {α : Type} (resp : RpcResponse α) (e : BitcoindHttpException)
    (he : resp.error = some e) :
    (e.code = -5 → get_raw_transaction resp = Except.ok none) ∧
    (e.code ≠ -5 → get_raw_transaction resp = Except.error e) := by
  have hp : process_http resp = Except.error e := by
    unfold process_http
    rw [he]
  constructor
  · intro h
    unfold get_raw_transaction
    rw [hp]
    show (if e.code = -5 then Except.ok none else Except.error e) = Except.ok none
    rw [if_pos h]
  · intro h
    unfold get_raw_transaction
    rw [hp]
    show (if e.code = -5 then Except.ok none else Except.error e) = Except.error e
    rw [if_neg h]

def respNotFound : RpcResponse ℕ := ⟨0, some ⟨-5, "tx not found"⟩⟩

def respOther : RpcResponse ℕ := ⟨0, some ⟨-32600, "invalid request"⟩⟩

/-- C7 witness: the theorem applied to a concrete -5 response (absent result) and a
concrete -32600 response (error propagated with its code and message). -/
theorem C7_witness :
    get_raw_transaction respNotFound = Except.ok none ∧
    get_raw_transaction respOther = Except.error ⟨-32600, "invalid request"⟩ :=
  ⟨(C7_not_found respNotFound ⟨-5, "tx not found"⟩ rfl).1 rfl,
    (C7_not_found respOther ⟨-32600, "invalid request"⟩ rfl).2 (by decide)⟩

/-! ### txdb.py — transaction summaries -/

/-- `RecordTransactionSummary`. -/
structure RecordTransactionSummary where
  txid : String
  weight : ℤ
  inputs : ℤ
  outputs : ℤ
deriving DecidableEq

/-- `RecordTransactionSummary.get_fees`. -/
def RecordTransactionSummary.get_fees (r : RecordTransactionSummary) : ℤ :=
  r.inputs - r.outputs

/-- One entry of a decoded transaction's `vin` array: `coinbase` records the
presence of the `"coinbase"` key; `txid`/`vout` reference the previous output
(meaningful for non-coinbase inputs only). -/
structure TxIn where
  coinbase : Bool
  txid : String
  vout : ℕ

/-- One entry of `vout`: the BTC amount, a decimal embedded as an exact rational. -/
structure TxOut where
  value : ℚ

/-- A decoded transaction as returned by `getrawtransaction txid True`. -/
structure Tx where
  vin : List TxIn
  vout : List TxOut
  weight : ℤ

/-- Python `int(...)` on a number: truncation toward zero. -/
def py_int (q : ℚ) : ℤ := if 0 ≤ q then ⌊q⌋ else ⌈q⌉

/-- `DbTxSummary._compute_output_sum`: `Σ int(COIN * value)` over the outputs. -/
def compute_output_sum (tx : Tx) : ℤ :=
  tx.vout.foldl (fun acc o => acc + py_int ((COIN : ℚ) * o.value)) 0

/-- `DbTxSummary._compute_input_sum`: fetch every referenced transaction through the
node (the node's `getrawtransaction` responses are abstracted as the pure lookup
`ledger`, `none` meaning absent) and sum the referenced output values; the outer
`none` models the exception raised when a referenced transaction is absent or an
output index is out of range. -/
def compute_input_sum (ledger : String → Option Tx) (tx : Tx) : Option ℤ :=
  tx.vin.foldl
    (fun acc inp => acc.bind fun s =>
      (ledger inp.txid).bind fun prev =>
        (prev.vout[inp.vout]?).map fun o => s + py_int ((COIN : ℚ) * o.value))
    (some 0)

/-- `DbTxSummary._compute_tx_summary`: fetch the transaction (node reports absent ⇒
result `none`), compute its output sum, take `inputs = outputs` when
`_is_coinbase(tx)` (the first input carries the `"coinbase"` key; `tx["vin"][0]`
raises on an empty `vin`, hence the outer `none` there), otherwise fetch and sum the
referenced outputs.  The result pairs the constructed record with the list of
`getrawtransaction` lookups performed, in order. -/
def compute_tx_summary (ledger : String → Option Tx) (txid : String) :
    Option (Option RecordTransactionSummary × List String) :=
  match ledger txid with
  | none => some (none, [txid])
  | some tx =>
    match tx.vin with
    | [] => none
    | i0 :: _ =>
      let outputs := compute_output_sum tx
      if i0.coinbase then
        some (some ⟨txid, tx.weight, outputs, outputs⟩, [txid])
      else
        match compute_input_sum ledger tx with
        | none => none
        | some inputs =>
          some (some ⟨txid, tx.weight, inputs, outputs⟩,
            txid :: tx.vin.map (fun i => i.txid))

/-- C8: for a transaction whose first input carries the coinbase marker, the
computed summary has `inputs = outputs` — regardless of the actual output amounts —
so the derived fee `inputs - outputs` is zero, and the only RPC lookup performed is
the transaction's own fetch: no referenced transactions are loaded. -/
theorem C8_coinbase (ledger : String → Option Tx) (txid : String) (tx : Tx)
    (h : ledger txid = some tx) (i0 : TxIn) (rest : List TxIn)
    (hv : tx.vin = i0 :: rest) (hc : i0.coinbase = true) :
    ∃ rec : RecordTransactionSummary,
      compute_tx_summary ledger txid = some (some rec, [txid]) ∧
      rec.inputs = rec.outputs ∧ rec.get_fees = 0 ∧
      rec.outputs = compute_output_sum tx := by
  refine ⟨⟨txid, tx.weight, compute_output_sum tx, compute_output_sum tx⟩, ?_, rfl, ?_, rfl⟩
  · unfold compute_tx_summary
    simp only [h]
    rw [hv]
    simp [hc]
  · unfold RecordTransactionSummary.get_fees
    simp

def coinbaseTx : Tx := ⟨[⟨true, "", 0⟩], [⟨50⟩, ⟨1/4⟩], 800⟩

def ledgerW : String → Option Tx := fun t => if t = "cb" then some coinbaseTx else none

/-- C8 witness: the theorem applied to a concrete coinbase transaction with two
outputs totalling 50.25 BTC. -/
theorem C8_witness :
    (ledgerW "cb" = some coinbaseTx ∧ coinbaseTx.vin = ⟨true, "", 0⟩ :: [] ∧
      (⟨true, "", 0⟩ : TxIn).coinbase = true) ∧
    ∃ rec : RecordTransactionSummary,
      compute_tx_summary ledgerW "cb" = some (some rec, ["cb"]) ∧
      rec.inputs = rec.outputs ∧ rec.get_fees = 0 ∧
      rec.outputs = compute_output_sum coinbaseTx :=
  ⟨⟨rfl, rfl, rfl⟩,
    C8_coinbase ledgerW "cb" coinbaseTx rfl ⟨true, "", 0⟩ [] rfl rfl⟩

/-! ### txdb.py — `DbTxSummary.process`

`process` serves cached ids from the store, spawns one `construct_tx_summary` task
per missing id, and finally runs `await asyncio.gather(*pending)`.  Two error paths
exist for a task that raises an unexpected exception:

  * the task is still in `pending` at the final gather — `asyncio.gather` re-raises
    its exception and the whole call aborts;
  * the admission-control loop (`if len(pending) > 1000: ... pending = [t for t in
    pending if not t.done()]`) pruned the task after it completed — the pruned task
    is never awaited, its exception is silently dropped, and its id (whose
    `records[txid] = ...` line was never reached) is simply missing from the result.

Which failed tasks are pruned depends on scheduling, so the embedding takes that as
an oracle `pruned : String → Bool`.  The check `len(pending) > 1000` runs before
each admission, so pruning can occur only when more than 1001 construct tasks are
admitted; the theorems carry that structural constraint as a hypothesis on the
oracle.  `compute` abstracts `_compute_tx_summary` (with the idempotent store
write-back elided): `Except.error` is an unexpected exception, `Except.ok none` the
node reporting the transaction absent. -/

/-- The outcome of `await asyncio.gather(*pending)`: the exception of the first
admitted task that failed and was not pruned, `none` when every failure (if any)
was pruned.  Successful tasks never contribute here whether pruned or not. -/
def gather_error (compute : String → Except String (Option RecordTransactionSummary))
    (pruned : String → Bool) : List String → Option String
  | [] => none
  | t :: rest =>
    match compute t with
    | Except.error e =>
      if pruned t then gather_error compute pruned rest else some e
    | Except.ok r => gather_error compute pruned rest

/-- The `records[txid] = tx_summary` writes performed by the construct tasks: every
task that completes without raising stores its result (pruning does not undo a
completed write); a failing task never reaches its write. -/
def construct_records
    (compute : String → Except String (Option RecordTransactionSummary)) :
    List String → List (String × Option RecordTransactionSummary)
  | [] => []
  | t :: rest =>
    match compute t with
    | Except.error e => construct_records compute rest
    | Except.ok r => (t, r) :: construct_records compute rest

/-- `DbTxSummary.process`: serve each id found in the cache from the (chunked)
store queries, construct the rest, and return the union of cache hits and completed
constructions — unless the final `asyncio.gather` re-raises the exception of a
failed, unpruned task, which aborts the call. -/
def DbTxSummary_process (cache : String → Option RecordTransactionSummary)
    (compute : String → Except String (Option RecordTransactionSummary))
    (pruned : String → Bool) (txid_list : List String) :
    Except String (List (String × Option RecordTransactionSummary)) :=
  match gather_error compute pruned (txid_list.filter fun t => (cache t).isNone) with
  | some e => Except.error e
  | none =>
    Except.ok ((txid_list.filterMap fun t => (cache t).map fun r => (t, some r)) ++
      construct_records compute (txid_list.filter fun t => (cache t).isNone))

theorem gather_error_of_failure
    (compute : String → Except String (Option RecordTransactionSummary))
    (pruned : String → Bool) (l : List String) (t : String) (ht : t ∈ l)
    (hpr : pruned t = false) (e : String) (he : compute t = Except.error e) :
    ∃ e2, gather_error compute pruned l = some e2 := by
  induction l with
  | nil => cases ht
  | cons t0 rest ih =>
    show (∃ e2, (match compute t0 with
      | Except.error e =>
        if pruned t0 then gather_error compute pruned rest else some e
      | Except.ok r => gather_error compute pruned rest) = some e2)
    rcases List.mem_cons.mp ht with rfl | hmem
    · rw [he]
      show (∃ e2,
        (if pruned t = true then gather_error compute pruned rest else some e) = some e2)
      rw [if_neg (by simp [hpr])]
      exact ⟨e, rfl⟩
    · match h0 : compute t0 with
      | Except.error e0 =>
        show (∃ e2,
          (if pruned t0 = true then gather_error compute pruned rest else some e0)
            = some e2)
        by_cases hp0 : pruned t0 = true
        · rw [if_pos hp0]
          exact ih hmem
        · rw [if_neg hp0]
          exact ⟨e0, rfl⟩
      | Except.ok r => exact ih hmem

theorem gather_error_none
    (compute : String → Except String (Option RecordTransactionSummary))
    (pruned : String → Bool) (l : List String)
    (h : ∀ t ∈ l, ∀ e, compute t = Except.error e → pruned t = true) :
    gather_error compute pruned l = none := by
  induction l with
  | nil => rfl
  | cons t0 rest ih =>
    show (match compute t0 with
      | Except.error e =>
        if pruned t0 then gather_error compute pruned rest else some e
      | Except.ok r => gather_error compute pruned rest) = none
    have ihr := ih fun t ht e he => h t (List.mem_cons_of_mem _ ht) e he
    match h0 : compute t0 with
    | Except.error e0 =>
      show (if pruned t0 = true then gather_error compute pruned rest else some e0) = none
      rw [if_pos (h t0 (List.mem_cons_self _ _) e0 h0)]
      exact ihr
    | Except.ok r => exact ihr

theorem construct_records_mem
    (compute : String → Except String (Option RecordTransactionSummary))
    (l : List String) (t : String) (ht : t ∈ l)
    (r : Option RecordTransactionSummary) (hr : compute t = Except.ok r) :
    (t, r) ∈ construct_records compute l := by
  induction l with
  | nil => cases ht
  | cons t0 rest ih =>
    show (t, r) ∈ (match compute t0 with
      | Except.error e => construct_records compute rest
      | Except.ok r0 => (t0, r0) :: construct_records compute rest)
    rcases List.mem_cons.mp ht with rfl | hmem
    · rw [hr]
      exact List.mem_cons_self _ _
    · match h0 : compute t0 with
      | Except.error e0 => exact ih hmem
      | Except.ok r0 => exact List.mem_cons_of_mem _ (ih hmem)

theorem construct_records_ok
    (compute : String → Except String (Option RecordTransactionSummary))
    (l : List String) (t : String) (v : Option RecordTransactionSummary) :
    (t, v) ∈ construct_records compute l → compute t = Except.ok v := by
  induction l with
  | nil => intro h; cases h
  | cons t0 rest ih =>
    show (t, v) ∈ (match compute t0 with
      | Except.error e => construct_records compute rest
      | Except.ok r0 => (t0, r0) :: construct_records compute rest) → _
    match h0 : compute t0 with
    | Except.error e0 => exact ih
    | Except.ok r0 =>
      intro hmem
      rcases List.mem_cons.mp hmem with heq | hmem2
      · injection heq with h1 h2
        rw [h1, h2]
        exact h0
      · exact ih hmem2

theorem mem_cached_part (cache : String → Option RecordTransactionSummary)
    (txid_list : List String) (t : String) (v : Option RecordTransactionSummary)
    (h : (t, v) ∈ txid_list.filterMap fun t => (cache t).map fun r => (t, some r)) :
    ∃ r, cache t = some r ∧ v = some r := by
  rcases List.mem_filterMap.mp h with ⟨t2, ht2, hmap⟩
  match hc : cache t2 with
  | none =>
    rw [hc] at hmap
    cases hmap
  | some r =>
    rw [hc] at hmap
    have h3 := Option.some.inj hmap
    have h4 : t2 = t := congrArg Prod.fst h3
    have h5 : some r = v := congrArg Prod.snd h3
    rw [← h4, hc]
    exact ⟨r, rfl, h5.symm⟩

/-- C5 (amended): an unexpected exception while constructing one summary aborts the
batch whenever the failing task is still in `pending` at the final `asyncio.gather`
— in particular always when at most 1001 ids need construction, since the
admission-control check `len(pending) > 1000` can then never prune.  Only a failing
task that completed and was pruned by the admission-control loop (possible only in
batches with more than 1001 uncached ids) has its exception silently dropped: when
every failure was pruned, `process` returns the result mapping with each failing id
omitted and the summaries of all cached and successfully constructed ids present
(absent transactions recorded as the absent value). -/
theorem C5_error_propagation (cache : String → Option RecordTransactionSummary)
    (compute : String → Except String (Option RecordTransactionSummary))
    (pruned : String → Bool) (txid_list : List String)
    (hconstraint : (txid_list.filter fun t => (cache t).isNone).length ≤ 1001 →
      ∀ t, pruned t = false) :
    ((∃ t ∈ txid_list, cache t = none ∧ pruned t = false ∧
        ∃ e, compute t = Except.error e) →
      ∃ e, DbTxSummary_process cache compute pruned txid_list = Except.error e) ∧
    ((txid_list.filter fun t => (cache t).isNone).length ≤ 1001 →
      (∃ t ∈ txid_list, cache t = none ∧ ∃ e, compute t = Except.error e) →
      ∃ e, DbTxSummary_process cache compute pruned txid_list = Except.error e) ∧
    ((∀ t ∈ txid_list, cache t = none → ∀ e, compute t = Except.error e →
        pruned t = true) →
      ∃ l, DbTxSummary_process cache compute pruned txid_list = Except.ok l ∧
        ∀ t ∈ txid_list,
          (∀ r, cache t = some r → (t, some r) ∈ l) ∧
          (cache t = none → ∀ r, compute t = Except.ok r → (t, r) ∈ l) ∧
          (cache t = none → (∃ e, compute t = Except.error e) →
            ∀ v, (t, v) ∉ l)) := by
  have habort : (∃ t ∈ txid_list, cache t = none ∧ pruned t = false ∧
      ∃ e, compute t = Except.error e) →
      ∃ e, DbTxSummary_process cache compute pruned txid_list = Except.error e := by
    rintro ⟨t, ht, hcnone, hpr, e, herr⟩
    have htc : t ∈ txid_list.filter fun t => (cache t).isNone :=
      List.mem_filter.mpr ⟨ht, by rw [hcnone]; rfl⟩
    obtain ⟨e2, he2⟩ := gather_error_of_failure compute pruned _ t htc hpr e herr
    refine ⟨e2, ?_⟩
    unfold DbTxSummary_process
    rw [he2]
  refine ⟨habort, ?_, ?_⟩
  · rintro hlen ⟨t, ht, hcnone, e, herr⟩
    exact habort ⟨t, ht, hcnone, hconstraint hlen t, e, herr⟩
  · intro hpruned
    have hnone : gather_error compute pruned
        (txid_list.filter fun t => (cache t).isNone) = none := by
      refine gather_error_none compute pruned _ fun t ht e he => ?_
      have h1 := List.mem_filter.mp ht
      exact hpruned t h1.1 (Option.isNone_iff_eq_none.mp h1.2) e he
    refine ⟨(txid_list.filterMap fun t => (cache t).map fun r => (t, some r)) ++
      construct_records compute (txid_list.filter fun t => (cache t).isNone),
      ?_, ?_⟩
    · unfold DbTxSummary_process
      rw [hnone]
    · intro t ht
      refine ⟨?_, ?_, ?_⟩
      · intro r hr
        refine List.mem_append.mpr (Or.inl (List.mem_filterMap.mpr ⟨t, ht, ?_⟩))
        rw [hr]
        rfl
      · intro hcn r hr
        refine List.mem_append.mpr (Or.inr ?_)
        exact construct_records_mem compute _ t
          (List.mem_filter.mpr ⟨ht, by rw [hcn]; rfl⟩) r hr
      · rintro hcn ⟨e, he⟩ v hv
        rcases List.mem_append.mp hv with hv1 | hv2
        · obtain ⟨r, hr, -⟩ := mem_cached_part cache txid_list t v hv1
          rw [hcn] at hr
          cases hr
        · have := construct_records_ok compute _ t v hv2
          rw [he] at this
          cases this

def cacheEmpty : String → Option RecordTransactionSummary := fun _ => none

def computeBoom : String → Except String (Option RecordTransactionSummary) :=
  fun t => if t = "a" then Except.error ("boom")
    else Except.ok (some ⟨"b", 400, 7, 5⟩)

/-- The scheduling oracle of a batch in which no pruning happened; for batches with
at most 1001 uncached ids it is the only oracle the code admits, because the
admission-control check `len(pending) > 1000` never fires there. -/
def prunedNone : String → Bool := fun _ => false

/-- C5 counterexample: an empty cache and a construction that raises on txid "a".
The batch `["a", "b"]` has 2 uncached ids, so no pruning is possible, every
construct task is gathered, and `process` propagates the exception instead of
returning a result mapping: the batch is aborted and the summary of "b" is not
returned, contradicting the claimed isolation of construction failures. -/
theorem C5_counterexample :
    ((["a", "b"] : List String).filter fun t => (cacheEmpty t).isNone).length ≤ 1001 ∧
    DbTxSummary_process cacheEmpty computeBoom prunedNone ["a", "b"]
      = Except.error ("boom") :=
  ⟨by decide, rfl⟩

def cacheW5 : String → Option RecordTransactionSummary :=
  fun t => if t = "c" then some ⟨"c", 600, 9, 8⟩ else none

def computeW5 : String → Except String (Option RecordTransactionSummary) :=
  fun t => if t = "x" then Except.error ("boom") else Except.ok none

/-- A batch with 1002 uncached ids, large enough for the admission-control loop to
prune. -/
def bigBatch : List String := "x" :: List.replicate 1001 "d"

/-- The scheduling oracle in which the failing task of "x" completed early and was
pruned before the final gather. -/
def prunedX : String → Bool := fun t => t == "x"

/-- C5 witness: the amended theorem at concrete inputs — a small batch (no pruning
possible) whose construction raises propagates an error, and a 1002-id batch whose
single failure was pruned returns a mapping that covers every constructed id and
omits the failing one. -/
theorem C5_witness :
    (∃ e, DbTxSummary_process cacheW5 computeW5 prunedNone ["c", "x"]
        = Except.error e) ∧
    (∃ l, DbTxSummary_process cacheEmpty computeW5 prunedX bigBatch = Except.ok l ∧
      ∀ t ∈ bigBatch,
        (∀ r, cacheEmpty t = some r → (t, some r) ∈ l) ∧
        (cacheEmpty t = none → ∀ r, computeW5 t = Except.ok r → (t, r) ∈ l) ∧
        (cacheEmpty t = none → (∃ e, computeW5 t = Except.error e) →
          ∀ v, (t, v) ∉ l)) := by
  constructor
  · exact (C5_error_propagation cacheW5 computeW5 prunedNone ["c", "x"]
      (fun _ t => rfl)).1 ⟨"x", by simp, rfl, rfl, "boom", rfl⟩
  · have hconstraint : ((bigBatch.filter fun t => (cacheEmpty t).isNone).length ≤ 1001)
        → ∀ t, prunedX t = false := by
      intro h
      have hfe : (bigBatch.filter fun t => (cacheEmpty t).isNone) = bigBatch :=
        List.filter_eq_self.mpr fun a _ => rfl
      rw [hfe] at h
      unfold bigBatch at h
      rw [List.length_cons, List.length_replicate] at h
      omega
    refine (C5_error_propagation cacheEmpty computeW5 prunedX bigBatch hconstraint).2.2
      fun t ht hcn e he => ?_
    by_cases hx : t = "x"
    · rw [hx]
      rfl
    · simp [computeW5, hx] at he

end BtcFlow
